import Mathlib

/-!
Verification development for the notex note-processing pipeline.

The definitions below are a shallow embedding of the Rust sources:
types.rs (data model), client.rs (LLM client retry loop), categorizer.rs
and processor.rs (JSON extraction, bounded-concurrency phases), enhancer.rs
(segment enhancement) and writer.rs (grouping and file rendering).
Strings are modelled as Lean String (character-level view of Rust str);
filesystem writes are modelled as the list of (path, content) pairs the
writer produces; the asynchronous phases are modelled by an explicit
arrival order (the completion order that futures::buffer_unordered yields)
together with a step relation for the semaphore-gated scheduler.
-/

/-! ## Data model (src/types.rs) -/

/-- Embedding of the Category enum of types.rs: twenty-three known members
plus an untagged custom variant holding an arbitrary string. -/
inductive Category where
  | mathematics
  | statistics
  | physics
  | chemistry
  | biology
  | computerScience
  | machineLearning
  | engineering
  | finance
  | philosophy
  | history
  | literature
  | languages
  | journal
  | ideas
  | todo
  | books
  | videos
  | articles
  | podcasts
  | reference
  | links
  | uncategorized
  | custom (s : String)
deriving DecidableEq, Repr

/-- Embedding of OutputFormat of types.rs. -/
inductive OutputFormat where
  | markdown
  | plain
deriving DecidableEq, Repr

/-- Embedding of RawNote of types.rs (paths modelled as strings). -/
structure RawNote where
  path : String
  content : String
deriving DecidableEq, Repr

/-- Embedding of Segment of types.rs. -/
structure Segment where
  content : String
  category : Category
  subcategory : Option String
  paths : List String
  cross_file_to : List String
deriving DecidableEq, Repr

/-- Embedding of EnhancedSegment of types.rs. -/
structure EnhancedSegment where
  original_path : String
  content : String
  category : Category
  subcategory : Option String
  output_paths : List String
deriving DecidableEq, Repr

/-! ## Category serialization (serde derive on types.rs Category)

The serde attributes on the enum are rename_all = snake_case for the
known members and untagged for the Custom variant: serialization emits
the snake_case member name (or the custom string verbatim), and
deserialization of a string tries the known member names first and
falls back to Custom with the string unchanged. -/

/-- Serialized form of a Category value: snake_case member name for the
known members, the held string verbatim for custom. -/
def serializeCategory : Category → String
  | .mathematics => "mathematics"
  | .statistics => "statistics"
  | .physics => "physics"
  | .chemistry => "chemistry"
  | .biology => "biology"
  | .computerScience => "computer_science"
  | .machineLearning => "machine_learning"
  | .engineering => "engineering"
  | .finance => "finance"
  | .philosophy => "philosophy"
  | .history => "history"
  | .literature => "literature"
  | .languages => "languages"
  | .journal => "journal"
  | .ideas => "ideas"
  | .todo => "todo"
  | .books => "books"
  | .videos => "videos"
  | .articles => "articles"
  | .podcasts => "podcasts"
  | .reference => "reference"
  | .links => "links"
  | .uncategorized => "uncategorized"
  | .custom s => s

/-- The known (non-custom) members in declaration order, paired with
their serialized names. -/
def knownCategories : List (Category × String) :=
  [(.mathematics, "mathematics"), (.statistics, "statistics"),
   (.physics, "physics"), (.chemistry, "chemistry"), (.biology, "biology"),
   (.computerScience, "computer_science"),
   (.machineLearning, "machine_learning"), (.engineering, "engineering"),
   (.finance, "finance"), (.philosophy, "philosophy"), (.history, "history"),
   (.literature, "literature"), (.languages, "languages"),
   (.journal, "journal"), (.ideas, "ideas"), (.todo, "todo"),
   (.books, "books"), (.videos, "videos"), (.articles, "articles"),
   (.podcasts, "podcasts"), (.reference, "reference"), (.links, "links"),
   (.uncategorized, "uncategorized")]

/-- Deserialization of a Category from a string: first string matching a
known member name wins, otherwise the untagged custom fallback holds the
string unchanged. -/
def parseCategory (s : String) : Category :=
  match knownCategories.find? (fun kv => kv.2 = s) with
  | some kv => kv.1
  | none => .custom s

/-! ## LLM client retry loop (src/client.rs) -/

/-- Embedding of ClientError of client.rs. -/
inductive ClientError where
  | openAI (msg : String)
  | noContent
  | maxRetries (attempts : Nat)
deriving DecidableEq, Repr

deriving instance DecidableEq for Except

/-- Observable outcome of one run of LlmClient::chat: the returned value,
the number of attempts actually issued, and the list of backoff sleep
durations (in seconds) in the order they were performed. -/
structure ChatRun where
  result : Except ClientError String
  attempts : Nat
  sleeps : List Nat
deriving DecidableEq, Repr

/-- Embedding of the retry loop of LlmClient::chat. The network is
abstracted by outcome, giving the result of the attempt with a given
1-based index. fuel counts the loop iterations still allowed; chat below
starts it at maxRetries so that attempts 1..maxRetries are issued exactly
as by the Rust for-loop. On failure at an attempt below maxRetries the
loop sleeps 2^(attempt-1) seconds (Duration::from_secs(1 shl (attempt-1)))
and continues; after a failing final attempt the stored last error is
returned; with zero iterations the fallback MaxRetries error is returned. -/
def chatLoop (outcome : Nat → Except ClientError String) (maxRetries : Nat) :
    Nat → Nat → Option ClientError → ChatRun
  | 0, _, lastErr =>
    ⟨.error (lastErr.getD (.maxRetries maxRetries)), 0, []⟩
  | fuel + 1, attempt, _ =>
    match outcome attempt with
    | .ok s => ⟨.ok s, 1, []⟩
    | .error e =>
      if attempt < maxRetries then
        let rest := chatLoop outcome maxRetries fuel (attempt + 1) (some e)
        ⟨rest.result, rest.attempts + 1, 2 ^ (attempt - 1) :: rest.sleeps⟩
      else
        ⟨.error e, 1, []⟩

/-- Embedding of LlmClient::chat: run the retry loop over attempts
1..maxRetries. -/
def chat (outcome : Nat → Except ClientError String) (maxRetries : Nat) : ChatRun :=
  chatLoop outcome maxRetries maxRetries 1 none

/-! ## Response extractor (extract_json in src/categorizer.rs and
src/processor.rs, two identical copies) -/

/-- The backtick character. -/
def btick : Char := Char.ofNat 96

/-- A triple-backtick fence, as a character list. -/
def tripleFence : List Char := [btick, btick, btick]

/-- Embedding of Rust str::trim on the character-list view: drop
whitespace from both ends. -/
def trimChars (s : List Char) : List Char :=
  ((s.dropWhile Char.isWhitespace).reverse.dropWhile Char.isWhitespace).reverse

/-- Embedding of Rust str::find for a newline: index of the first
newline character, if any. -/
def findNewline : List Char → Option Nat
  | [] => none
  | c :: t => if c = '\n' then some 0 else (findNewline t).map (· + 1)

/-- Whether a triple-backtick fence occurs at index i of s. -/
def fenceAt (s : List Char) (i : Nat) : Bool :=
  (s.drop i).take 3 = tripleFence

/-- Largest index below n at which a fence occurs. -/
def lastFenceBelow (s : List Char) : Nat → Option Nat
  | 0 => none
  | n + 1 => if fenceAt s n then some n else lastFenceBelow s n

/-- Embedding of Rust str::rfind for a triple-backtick pattern: largest
index at which the fence occurs in s, if any. -/
def rfindFence (s : List Char) : Option Nat :=
  lastFenceBelow s s.length

/-- Embedding of extract_json (categorizer.rs lines 73-90, identical copy
at processor.rs lines 490-504) on the character-list view: trim; if the
trimmed text starts with a triple-backtick fence, cut after the first
newline and before the last fence occurrence in the remainder and trim
that slice; in every other case return the trimmed text unchanged. -/
def extractJsonChars (response : List Char) : List Char :=
  let trimmed := trimChars response
  if trimmed.take 3 = tripleFence then
    match findNewline trimmed with
    | some start =>
      let rest := trimmed.drop (start + 1)
      match rfindFence rest with
      | some e => trimChars (rest.take e)
      | none => trimmed
    | none => trimmed
  else trimmed

/-- Embedding of extract_json at the String level. -/
def extract_json (response : String) : String :=
  String.mk (extractJsonChars response.data)

/-! ## Enhancement stage (src/enhancer.rs) -/

/-- Embedding of EnhancementError of enhancer.rs. -/
inductive EnhancementError where
  | client (e : ClientError)
deriving DecidableEq, Repr

/-- Embedding of enhance_segment (enhancer.rs lines 58-86). The LLM call
is abstracted by its outcome chatResult; on success the enhanced segment
carries the rewritten content, the propagated category and subcategory,
and as output_paths the segment's primary paths followed by its
cross-file paths (all_paths = paths ++ cross_file_to in the source). -/
def enhance_segment (chatResult : Except ClientError String)
    (segment : Segment) (original_path : String) :
    Except EnhancementError EnhancedSegment :=
  match chatResult with
  | .error e => .error (.client e)
  | .ok enhancedContent =>
    .ok { original_path := original_path
          content := enhancedContent
          category := segment.category
          subcategory := segment.subcategory
          output_paths := segment.paths ++ segment.cross_file_to }

/-! ## Aggregation and writing (src/writer.rs) -/

/-- Embedding of group_by_output_path (writer.rs lines 14-29). The
HashMap of groups is modelled as the total function from a path to the
ordered list pushed for that path; a path never pushed maps to the empty
list (an absent key). Segments are processed in the order of the input
vector and each segment is pushed onto the group of every path in its
output_paths. -/
def group_by_output_path (segments : List EnhancedSegment) :
    String → List EnhancedSegment :=
  segments.foldl
    (fun g seg =>
      seg.output_paths.foldl
        (fun g' path => fun q => if q == path then g' q ++ [seg] else g' q) g)
    (fun _ => [])

/-- Separator string used between segments of one file
(build_file_content in writer.rs): a horizontal rule for markdown, an
80-character rule of equals signs for plain text. -/
def sepFor : OutputFormat → String
  | .markdown => "\n\n---\n\n"
  | .plain => "\n\n" ++ String.mk (List.replicate 80 '=') ++ "\n\n"

/-- Whether a string ends with a newline character (Rust
content.ends_with(newline)). -/
def endsWithNewline (s : String) : Bool :=
  s.data.getLast? = some '\n'

/-- Embedding of build_file_content (writer.rs lines 58-88): fold over
the segments with a running index, prepending the format separator
before every segment except the first, then append one newline if the
accumulated content does not already end with one. -/
def build_file_content (segments : List EnhancedSegment) (format : OutputFormat) : String :=
  let content :=
    (segments.foldl
      (fun (acc : String × Nat) seg =>
        (if acc.2 > 0 then acc.1 ++ sepFor format ++ seg.content
         else acc.1 ++ seg.content,
         acc.2 + 1))
      ("", 0)).1
  if endsWithNewline content then content else content ++ "\n"

/-- The set of keys present in the grouping HashMap: every path pushed
at least once, i.e. every path occurring in some segment's output_paths
(deduplicated; HashMap iteration order is arbitrary, and no per-file
content depends on it). -/
def groupKeys (segments : List EnhancedSegment) : List String :=
  (segments.flatMap (fun s => s.output_paths)).dedup

/-- Embedding of write_outputs (writer.rs lines 32-56) at the level of
produced file contents: for every group key, the pair of the path and
the rendered content of its group. -/
def write_outputs (segments : List EnhancedSegment) (format : OutputFormat) :
    List (String × String) :=
  (groupKeys segments).map
    (fun p => (p, build_file_content (group_by_output_path segments p) format))

/-! ## Concurrency scheduler (categorize_all and enhance_all in
src/processor.rs)

Both phases build one future per work item, of the shape: acquire a
semaphore permit, run the network call, record success or failure,
increment the progress bar once, and release the permit (the permit
guard is dropped when the future finishes, on both paths). The futures
are driven by buffer_unordered(parallel), which keeps at most parallel
futures in flight at once, and the semaphore also has parallel permits.
The scheduler is modelled as a transition system over per-task phases. -/

/-- Phase of one scheduled task: not yet started by the stream, started
and waiting on the semaphore, holding a permit and running its network
call, or finished (with its success flag) having released the permit. -/
inductive TaskPhase where
  | pending
  | waiting
  | inflight
  | done (success : Bool)
deriving DecidableEq, Repr

/-- Whether a task currently holds a semaphore permit and runs its call. -/
def TaskPhase.isInflight : TaskPhase → Bool
  | .inflight => true
  | _ => false

/-- Whether a task has been started by the stream and not yet finished
(buffer_unordered counts it against its buffer). -/
def TaskPhase.isActive : TaskPhase → Bool
  | .waiting => true
  | .inflight => true
  | _ => false

/-- Number of tasks currently holding a permit. -/
def inflightCount (s : List TaskPhase) : Nat :=
  s.countP TaskPhase.isInflight

/-- Number of tasks currently buffered by the stream. -/
def activeCount (s : List TaskPhase) : Nat :=
  s.countP TaskPhase.isActive

/-- One scheduler transition with concurrency cap C: the stream starts a
pending task only while fewer than C are buffered (buffer_unordered), a
waiting task acquires a permit only while fewer than C permits are held
(Semaphore::acquire), and a task holding a permit finishes with either
outcome, releasing the permit in both cases (the guard is dropped at the
end of the async block on success and on failure alike). -/
inductive SchedStep (C : Nat) : List TaskPhase → List TaskPhase → Prop where
  | start (s : List TaskPhase) (i : Nat)
      (h : s[i]? = some .pending) (hbuf : activeCount s < C) :
      SchedStep C s (s.set i .waiting)
  | acquire (s : List TaskPhase) (i : Nat)
      (h : s[i]? = some .waiting) (hsem : inflightCount s < C) :
      SchedStep C s (s.set i .inflight)
  | finish (s : List TaskPhase) (i : Nat) (b : Bool)
      (h : s[i]? = some .inflight) :
      SchedStep C s (s.set i (.done b))

/-- States reachable by the scheduler from N fresh tasks under cap C. -/
inductive SchedReachable (C N : Nat) : List TaskPhase → Prop where
  | init : SchedReachable C N (List.replicate N .pending)
  | step {s t : List TaskPhase} :
      SchedReachable C N s → SchedStep C s t → SchedReachable C N t

/-! ## Phase result collection (categorize_all and enhance_all,
processor.rs lines 202-243 and 246-291)

The per-item network work is abstracted by an oracle giving the item's
outcome; buffer_unordered delivers the per-item results in completion
order, modelled by letting the item list arrive in an arbitrary
permutation of the submission list. Each item yields Some on success and
None on a logged failure, and the phase flattens the collected options,
dropping the failures. -/

/-- Embedding of categorize_all: map each arrived note to its optional
result (path paired with the segments on success, dropped on failure)
and flatten. -/
def categorize_all (oracle : RawNote → Option (List Segment))
    (arrived : List RawNote) : List (String × List Segment) :=
  (arrived.map (fun note => (oracle note).map (fun segs => (note.path, segs)))).filterMap id

/-- Flattening of categorized notes into enhancement work items
(enhance_all lines 252-259): one (path, segment) pair per segment. -/
def enhanceTasks (categorized : List (String × List Segment)) :
    List (String × Segment) :=
  categorized.flatMap (fun pr => pr.2.map (fun seg => (pr.1, seg)))

/-- Embedding of enhance_all: map each arrived (path, segment) task to
its optional enhanced segment and flatten, dropping failures. -/
def enhance_all (oracle : String × Segment → Option EnhancedSegment)
    (arrivedTasks : List (String × Segment)) : List EnhancedSegment :=
  (arrivedTasks.map oracle).filterMap id

/-- Total number of progress-bar increments performed by a phase: each
task increments the bar exactly once, on its success and on its failure
path alike (pb.inc(1) after the match in both phases). -/
def phaseProgress (arrived : List α) : Nat :=
  (arrived.map (fun _ => 1)).sum

/-! ## Helper lemmas about strings -/

theorem strData_append (a b : String) : (a ++ b).data = a.data ++ b.data := by
  cases a
  cases b
  rfl

theorem strAppend_assoc (a b c : String) : a ++ b ++ c = a ++ (b ++ c) := by
  cases a with
  | mk x =>
    cases b with
    | mk y =>
      cases c with
      | mk z => exact congrArg String.mk (List.append_assoc x y z)

theorem strAppend_nil (s : String) : s ++ "" = s := by
  cases s with
  | mk x => exact congrArg String.mk (List.append_nil x)

theorem strNil_append (s : String) : "" ++ s = s := by
  cases s with
  | mk x => rfl

theorem endsWithNewline_append_newline (s : String) :
    endsWithNewline (s ++ "\n") = true := by
  have h : (s ++ "\n").data = s.data ++ ['\n'] := strData_append s "\n"
  simp [endsWithNewline, h, List.getLast?_concat]

/-! ## Helper lemmas about grouping -/

/-- The entries that one segment contributes to the group of key q: one
copy of the segment per occurrence of q among its output paths. -/
def pathHits (q : String) (s : EnhancedSegment) : List EnhancedSegment :=
  (s.output_paths.filter (fun x => q == x)).map (fun _ => s)

theorem groupInner_foldl (seg : EnhancedSegment) :
    ∀ (paths : List String) (g : String → List EnhancedSegment) (q : String),
      (paths.foldl
        (fun g' path => fun q' => if q' == path then g' q' ++ [seg] else g' q') g) q
        = g q ++ (paths.filter (fun x => q == x)).map (fun _ => seg) := by
  intro paths
  induction paths with
  | nil => intro g q; simp
  | cons p0 rest ih =>
    intro g q
    simp only [List.foldl_cons, List.filter_cons]
    rw [ih]
    by_cases h : q == p0
    · simp [h, List.append_assoc]
    · simp [h]

theorem group_eq_flatMap (segments : List EnhancedSegment) (q : String) :
    group_by_output_path segments q = segments.flatMap (pathHits q) := by
  suffices h : ∀ (segs : List EnhancedSegment) (g : String → List EnhancedSegment),
      (segs.foldl
        (fun g' seg =>
          seg.output_paths.foldl
            (fun g'' path => fun q' => if q' == path then g'' q' ++ [seg] else g'' q') g') g) q
        = g q ++ segs.flatMap (pathHits q) by
    have := h segments (fun _ => [])
    simpa [group_by_output_path] using this
  intro segs
  induction segs with
  | nil => intro g; simp
  | cons s rest ih =>
    intro g
    simp only [List.foldl_cons, List.flatMap_cons]
    rw [ih, groupInner_foldl]
    simp [pathHits, List.append_assoc]

theorem mem_group_iff (segments : List EnhancedSegment) (q : String)
    (s : EnhancedSegment) :
    s ∈ group_by_output_path segments q ↔ s ∈ segments ∧ q ∈ s.output_paths := by
  rw [group_eq_flatMap]
  simp only [List.mem_flatMap, pathHits, List.mem_map, List.mem_filter]
  constructor
  · rintro ⟨a, ha, x, ⟨hx, hqx⟩, rfl⟩
    exact ⟨ha, by simpa [eq_of_beq hqx] using hx⟩
  · rintro ⟨hs, hq⟩
    exact ⟨s, hs, q, ⟨hq, by simp⟩, rfl⟩

/-! ## Helper lemmas about file rendering -/

/-- Join where the separator precedes every element. -/
def joinPre (sep : String) : List String → String
  | [] => ""
  | x :: xs => sep ++ x ++ joinPre sep xs

/-- Join where the separator stands between consecutive elements: the
spec-side reading of rendering, the segment texts joined in order by the
format separator. -/
def joinSep (sep : String) : List String → String
  | [] => ""
  | [x] => x
  | x :: y :: xs => x ++ sep ++ joinSep sep (y :: xs)

theorem joinSep_cons (sep x : String) :
    ∀ xs : List String, joinSep sep (x :: xs) = x ++ joinPre sep xs := by
  intro xs
  induction xs generalizing x with
  | nil => simp [joinSep, joinPre, strAppend_nil]
  | cons y ys ih =>
    simp only [joinSep, joinPre]
    rw [ih y, strAppend_assoc, strAppend_assoc]

theorem buildLoop_eq_joinPre (sep : String) :
    ∀ (segs : List EnhancedSegment) (acc : String) (n : Nat), 0 < n →
      (segs.foldl
        (fun (a : String × Nat) seg =>
          (if a.2 > 0 then a.1 ++ sep ++ seg.content else a.1 ++ seg.content,
           a.2 + 1))
        (acc, n)).1
        = acc ++ joinPre sep (segs.map (fun s => s.content)) := by
  intro segs
  induction segs with
  | nil => intro acc n _; simp [joinPre, strAppend_nil]
  | cons s rest ih =>
    intro acc n hn
    simp only [List.foldl_cons, List.map_cons, joinPre]
    rw [if_pos hn]
    rw [ih (acc ++ sep ++ s.content) (n + 1) (Nat.succ_pos n)]
    rw [strAppend_assoc, strAppend_assoc, strAppend_assoc]

theorem build_file_content_eq_joinSep (segments : List EnhancedSegment)
    (format : OutputFormat) (hne : segments ≠ []) :
    build_file_content segments format =
      (if endsWithNewline (joinSep (sepFor format) (segments.map (fun s => s.content)))
       then joinSep (sepFor format) (segments.map (fun s => s.content))
       else joinSep (sepFor format) (segments.map (fun s => s.content)) ++ "\n") := by
  cases segments with
  | nil => exact absurd rfl hne
  | cons s rest =>
    show (if endsWithNewline ((((s :: rest).foldl _ ("", 0)).1) : String) then _ else _) = _
    have h0 : ((s :: rest).foldl
        (fun (a : String × Nat) seg =>
          (if a.2 > 0 then a.1 ++ sepFor format ++ seg.content
           else a.1 ++ seg.content,
           a.2 + 1))
        ("", 0)).1
        = joinSep (sepFor format) ((s :: rest).map (fun se => se.content)) := by
      simp only [List.foldl_cons]
      have hstep : ((if (0 : Nat) > 0 then "" ++ sepFor format ++ s.content
          else "" ++ s.content, (0 : Nat) + 1) : String × Nat)
          = (s.content, 1) := by
        simp [strNil_append]
      rw [hstep, buildLoop_eq_joinPre (sepFor format) rest s.content 1 Nat.one_pos]
      rw [List.map_cons, joinSep_cons]
    rw [h0]

theorem build_file_content_endsWithNewline (segments : List EnhancedSegment)
    (format : OutputFormat) :
    endsWithNewline (build_file_content segments format) = true := by
  unfold build_file_content
  set c := ((segments.foldl
      (fun (a : String × Nat) seg =>
        (if a.2 > 0 then a.1 ++ sepFor format ++ seg.content
         else a.1 ++ seg.content,
         a.2 + 1))
      ("", 0)).1) with hc
  by_cases h : endsWithNewline c
  · simp [h]
  · simp only [h]
    simp only [Bool.false_eq_true, if_false]
    exact endsWithNewline_append_newline c

/-! ## Helper lemmas about the retry loop -/

theorem chatLoop_attempts_le (outcome : Nat → Except ClientError String)
    (m : Nat) :
    ∀ (fuel attempt : Nat) (le : Option ClientError),
      (chatLoop outcome m fuel attempt le).attempts ≤ fuel := by
  intro fuel
  induction fuel with
  | zero => intro attempt le; simp [chatLoop]
  | succ f ih =>
    intro attempt le
    simp only [chatLoop]
    cases houtcome : outcome attempt with
    | ok s => simp
    | error e =>
      by_cases h : attempt < m
      · simp only [h, if_true]
        have := ih (attempt + 1) (some e)
        omega
      · simp [h]

theorem chatLoop_first_success (outcome : Nat → Except ClientError String)
    (m k : Nat) (s : String) (hok : outcome k = .ok s) :
    ∀ (fuel attempt : Nat) (le : Option ClientError),
      1 ≤ attempt → attempt ≤ k → k ≤ m → m + 1 = attempt + fuel →
      (∀ i, attempt ≤ i → i < k → ∃ e, outcome i = .error e) →
      chatLoop outcome m fuel attempt le =
        ⟨.ok s, k + 1 - attempt,
         (List.range (k - attempt)).map (fun j => 2 ^ (attempt + j - 1))⟩ := by
  intro fuel
  induction fuel with
  | zero =>
    intro attempt le h1 hak hkm hm _
    omega
  | succ f ih =>
    intro attempt le h1 hak hkm hm hfail
    by_cases heq : attempt = k
    · rw [heq]
      simp only [chatLoop, hok]
      rw [show k + 1 - k = 1 by omega, show k - k = 0 by omega]
      simp
    · have hlt : attempt < k := lt_of_le_of_ne hak heq
      obtain ⟨e, he⟩ := hfail attempt (le_refl attempt) hlt
      simp only [chatLoop, he]
      have hm' : attempt < m := lt_of_lt_of_le hlt hkm
      rw [if_pos hm']
      rw [ih (attempt + 1) (some e) (by omega) (by omega) hkm (by omega)
          (fun i hi hik => hfail i (by omega) hik)]
      have hattcnt : k + 1 - (attempt + 1) + 1 = k + 1 - attempt := by omega
      have hrange : k - attempt = (k - (attempt + 1)) + 1 := by omega
      refine congrArg₂ (fun (a : Nat) (l : List Nat) =>
        ChatRun.mk (.ok s) a l) hattcnt ?_
      rw [hrange, List.range_succ_eq_map]
      simp only [List.map_cons, List.map_map]
      refine congrArg₂ List.cons ?_ ?_
      · have : attempt + 0 - 1 = attempt - 1 := by omega
        rw [this]
      · apply List.map_congr_left
        intro j _
        simp only [Function.comp]
        have : attempt + 1 + j - 1 = attempt + (j + 1) - 1 := by omega
        rw [this]

theorem chatLoop_all_fail (outcome : Nat → Except ClientError String)
    (m : Nat) (errs : Nat → ClientError)
    (hfail : ∀ i, 1 ≤ i → i ≤ m → outcome i = .error (errs i)) :
    ∀ (fuel attempt : Nat) (le : Option ClientError),
      1 ≤ attempt → attempt ≤ m → m + 1 = attempt + fuel →
      (chatLoop outcome m fuel attempt le).result = .error (errs m) := by
  intro fuel
  induction fuel with
  | zero =>
    intro attempt le h1 ham hm
    omega
  | succ f ih =>
    intro attempt le h1 ham hm
    have he := hfail attempt h1 ham
    simp only [chatLoop, he]
    by_cases hlt : attempt < m
    · rw [if_pos hlt]
      exact ih (attempt + 1) (some (errs attempt)) (by omega) (by omega) (by omega)
    · have : attempt = m := by omega
      subst this
      rw [if_neg hlt]

/-! ## Helper lemmas about the scheduler -/

theorem countP_set_phase (p : TaskPhase → Bool) (l : List TaskPhase) (i : Nat)
    (a old : TaskPhase) (h : l[i]? = some old) :
    (l.set i a).countP p + (if p old then 1 else 0)
      = l.countP p + (if p a then 1 else 0) := by
  obtain ⟨hlen, hget⟩ := List.getElem?_eq_some_iff.mp h
  rw [List.countP_set p l i a hlen, hget]
  have hle : (if p old then 1 else 0) ≤ l.countP p := by
    by_cases hp : p old
    · simp only [hp, if_true]
      have hmem : old ∈ l := hget ▸ List.getElem_mem hlen
      exact List.countP_pos_iff.mpr ⟨old, hmem, hp⟩
    · simp [hp]
  omega


theorem schedStep_preserves_bounds (C : Nat) {s t : List TaskPhase}
    (hstep : SchedStep C s t)
    (hinf : inflightCount s ≤ C) (hact : activeCount s ≤ C) :
    inflightCount t ≤ C ∧ activeCount t ≤ C := by
  cases hstep with
  | start i h hbuf =>
    have h1 := countP_set_phase TaskPhase.isInflight s i .waiting .pending h
    have h2 := countP_set_phase TaskPhase.isActive s i .waiting .pending h
    rw [show (if TaskPhase.isInflight .pending then (1 : Nat) else 0) = 0 from rfl,
        show (if TaskPhase.isInflight .waiting then (1 : Nat) else 0) = 0 from rfl] at h1
    rw [show (if TaskPhase.isActive .pending then (1 : Nat) else 0) = 0 from rfl,
        show (if TaskPhase.isActive .waiting then (1 : Nat) else 0) = 1 from rfl] at h2
    simp only [inflightCount, activeCount] at *
    omega
  | acquire i h hsem =>
    have h1 := countP_set_phase TaskPhase.isInflight s i .inflight .waiting h
    have h2 := countP_set_phase TaskPhase.isActive s i .inflight .waiting h
    rw [show (if TaskPhase.isInflight .waiting then (1 : Nat) else 0) = 0 from rfl,
        show (if TaskPhase.isInflight .inflight then (1 : Nat) else 0) = 1 from rfl] at h1
    rw [show (if TaskPhase.isActive .waiting then (1 : Nat) else 0) = 1 from rfl,
        show (if TaskPhase.isActive .inflight then (1 : Nat) else 0) = 1 from rfl] at h2
    simp only [inflightCount, activeCount] at *
    omega
  | finish i b h =>
    have h1 := countP_set_phase TaskPhase.isInflight s i (.done b) .inflight h
    have h2 := countP_set_phase TaskPhase.isActive s i (.done b) .inflight h
    rw [show (if TaskPhase.isInflight .inflight then (1 : Nat) else 0) = 1 from rfl,
        show (if TaskPhase.isInflight (.done b) then (1 : Nat) else 0) = 0 from rfl] at h1
    rw [show (if TaskPhase.isActive .inflight then (1 : Nat) else 0) = 1 from rfl,
        show (if TaskPhase.isActive (.done b) then (1 : Nat) else 0) = 0 from rfl] at h2
    simp only [inflightCount, activeCount] at *
    omega

theorem sched_reachable_bounds (C N : Nat) :
    ∀ s : List TaskPhase, SchedReachable C N s →
      inflightCount s ≤ C ∧ activeCount s ≤ C := by
  intro s h
  induction h with
  | init =>
    have hz : ∀ p : TaskPhase → Bool, p .pending = false →
        (List.replicate N TaskPhase.pending).countP p = 0 := by
      intro p hp
      rw [List.countP_eq_zero]
      intro a ha
      rw [List.eq_of_mem_replicate ha, hp]
      simp
    constructor
    · rw [inflightCount, hz TaskPhase.isInflight rfl]; omega
    · rw [activeCount, hz TaskPhase.isActive rfl]; omega
  | step _ hstep ih =>
    exact schedStep_preserves_bounds _ hstep ih.1 ih.2

theorem schedStep_inflight_source (C : Nat) {s t : List TaskPhase}
    (hstep : SchedStep C s t) (i : Nat)
    (hnot : s[i]? ≠ some TaskPhase.inflight)
    (hyes : t[i]? = some TaskPhase.inflight) :
    s[i]? = some TaskPhase.waiting ∧ inflightCount s < C := by
  cases hstep with
  | start j h hbuf =>
    by_cases hij : j = i
    · subst hij
      obtain ⟨hlen, _⟩ := List.getElem?_eq_some_iff.mp h
      rw [List.getElem?_set_self hlen] at hyes
      exact absurd (Option.some.inj hyes) (by simp)
    · rw [List.getElem?_set_ne hij] at hyes
      exact absurd hyes hnot
  | acquire j h hsem =>
    by_cases hij : j = i
    · subst hij
      exact ⟨h, hsem⟩
    · rw [List.getElem?_set_ne hij] at hyes
      exact absurd hyes hnot
  | finish j b h =>
    by_cases hij : j = i
    · subst hij
      obtain ⟨hlen, _⟩ := List.getElem?_eq_some_iff.mp h
      rw [List.getElem?_set_self hlen] at hyes
      exact absurd (Option.some.inj hyes) (by simp)
    · rw [List.getElem?_set_ne hij] at hyes
      exact absurd hyes hnot

theorem finish_releases_permit (s : List TaskPhase) (i : Nat) (b : Bool)
    (h : s[i]? = some TaskPhase.inflight) :
    inflightCount (s.set i (TaskPhase.done b)) + 1 = inflightCount s := by
  have h1 := countP_set_phase TaskPhase.isInflight s i (.done b) .inflight h
  rw [show (if TaskPhase.isInflight .inflight then (1 : Nat) else 0) = 1 from rfl,
      show (if TaskPhase.isInflight (.done b) then (1 : Nat) else 0) = 0 from rfl] at h1
  simp only [inflightCount]
  omega

/-! ## Helper lemmas about the extractor -/

theorem findNewline_spec (l : List Char) (n : Nat)
    (h1 : l[n]? = some '\n') (h2 : ∀ j, j < n → l[j]? ≠ some '\n') :
    findNewline l = some n := by
  induction l generalizing n with
  | nil => simp at h1
  | cons c t ih =>
    cases n with
    | zero =>
      simp only [List.getElem?_cons_zero, Option.some.injEq] at h1
      simp [findNewline, h1]
    | succ m =>
      have hc : ¬(c = '\n') := by
        intro hcontra
        exact h2 0 (Nat.succ_pos m) (by simp [hcontra])
      simp only [findNewline, if_neg hc]
      rw [ih m (by simpa using h1)
          (fun j hj => by
            have := h2 (j + 1) (Nat.succ_lt_succ hj)
            simpa using this)]
      rfl

theorem findNewline_of_not_mem (l : List Char) (h : '\n' ∉ l) :
    findNewline l = none := by
  induction l with
  | nil => rfl
  | cons c t ih =>
    have hc : ¬(c = '\n') := fun hcontra => h (hcontra ▸ List.mem_cons_self c t)
    simp only [findNewline, if_neg hc]
    rw [ih (fun hmem => h (List.mem_cons_of_mem c hmem))]
    rfl

theorem fenceAt_false_of_ge (s : List Char) (i : Nat) (h : s.length ≤ i) :
    fenceAt s i = false := by
  have hdrop : s.drop i = [] := List.drop_eq_nil_of_le h
  simp [fenceAt, hdrop, tripleFence]

theorem lastFenceBelow_some (s : List Char) (e : Nat)
    (h1 : fenceAt s e = true) (h2 : ∀ j, e < j → fenceAt s j = false) :
    ∀ n, e < n → lastFenceBelow s n = some e := by
  intro n
  induction n with
  | zero => intro h; omega
  | succ m ih =>
    intro hen
    by_cases hem : e = m
    · subst hem
      simp [lastFenceBelow, h1]
    · have hlt : e < m := by omega
      have hm : fenceAt s m = false := h2 m hlt
      simp only [lastFenceBelow, hm]
      simp only [Bool.false_eq_true, if_false]
      exact ih hlt

theorem lastFenceBelow_none (s : List Char)
    (h : ∀ j, fenceAt s j = false) :
    ∀ n, lastFenceBelow s n = none := by
  intro n
  induction n with
  | zero => rfl
  | succ m ih =>
    simp only [lastFenceBelow, h m]
    simp only [Bool.false_eq_true, if_false]
    exact ih

theorem fenceAt_lt_length (s : List Char) (i : Nat)
    (h : fenceAt s i = true) : i < s.length := by
  by_contra hge
  rw [fenceAt_false_of_ge s i (by omega)] at h
  exact Bool.false_ne_true h

theorem rfindFence_some (s : List Char) (e : Nat)
    (h1 : fenceAt s e = true) (h2 : ∀ j, e < j → fenceAt s j = false) :
    rfindFence s = some e :=
  lastFenceBelow_some s e h1 h2 s.length (fenceAt_lt_length s e h1)

theorem rfindFence_none (s : List Char)
    (h : ∀ j, fenceAt s j = false) :
    rfindFence s = none :=
  lastFenceBelow_none s h s.length

/-! ## Helper lemmas about phase result counting -/

theorem length_filterMap_id_map {α β : Type} (f : α → Option β) (l : List α) :
    ((l.map f).filterMap id).length = l.countP (fun a => (f a).isSome) := by
  rw [List.filterMap_map, List.length_filterMap_eq_countP]
  simp

theorem countP_isSome_add_isNone {α β : Type} (f : α → Option β) (l : List α) :
    l.countP (fun a => (f a).isSome) + l.countP (fun a => (f a).isNone)
      = l.length := by
  induction l with
  | nil => rfl
  | cons a t ih =>
    simp only [List.countP_cons, List.length_cons]
    cases hfa : f a <;> simp [hfa] <;> omega

theorem phaseProgress_eq_length {α : Type} (l : List α) :
    phaseProgress l = l.length := by
  induction l with
  | nil => rfl
  | cons a t ih =>
    simp only [phaseProgress, List.map_cons, List.sum_cons, List.length_cons] at *
    omega

/-! ## Concrete example values used by witnesses and counterexamples -/

/-- Two enhanced segments with different content targeting the same path. -/
def segA : EnhancedSegment :=
  ⟨"note1.md", "Alpha", .mathematics, none, ["a.md"]⟩

/-- Second enhanced segment targeting the same path as segA. -/
def segB : EnhancedSegment :=
  ⟨"note2.md", "Beta", .physics, none, ["a.md"]⟩

/-- An enhanced segment whose content already ends in two newlines. -/
def segNL : EnhancedSegment :=
  ⟨"note3.md", "x\n\n", .ideas, none, ["a.md"]⟩

/-- An enhanced segment with an empty list of output paths. -/
def segNoPath : EnhancedSegment :=
  ⟨"note4.md", "Orphan", .todo, none, []⟩

/-- A segment with one primary path and one cross-file path. -/
def segExample : Segment :=
  ⟨"content", .mathematics, none, ["a.md"], ["b.md"]⟩

/-- An attempt oracle that fails twice, then succeeds. -/
def failTwiceOutcome : Nat → Except ClientError String :=
  fun i => if i ≤ 2 then .error .noContent else .ok "done"

/-- An attempt oracle that always fails with NoContent. -/
def allFailOutcome : Nat → Except ClientError String :=
  fun _ => .error .noContent

/-- A fenced model reply used to exercise the extractor. -/
def fencedExample : String := "```json\n{}\n```"

/-- Spec-side reading of ends with exactly one trailing newline: the last
character is a newline and the character before it is not. -/
def exactlyOneTrailingNewline (s : String) : Bool :=
  (s.data.getLast? == some '\n') && !(s.data.dropLast.getLast? == some '\n')

/-! ## One more grouping helper -/

theorem filter_beq_of_nodup (p : String) (paths : List String)
    (hnd : paths.Nodup) :
    paths.filter (fun x => p == x) = if p ∈ paths then [p] else [] := by
  induction paths with
  | nil => simp
  | cons a t ih =>
    rw [List.nodup_cons] at hnd
    obtain ⟨hna, hndt⟩ := hnd
    by_cases hpa : p = a
    · subst hpa
      have ht : t.filter (fun x => p == x) = [] := by
        rw [List.filter_eq_nil_iff]
        intro b hb hcontra
        exact hna ((eq_of_beq hcontra) ▸ hb)
      simp [List.filter_cons, ht]
    · have : (p == a) = false := beq_eq_false_iff_ne.mpr hpa
      simp [List.filter_cons, this, ih hndt, List.mem_cons, hpa]

/-! ## Claim theorems -/

/-- C1 counterexample: the two arrival orders of the same two enhanced
segments (a permutation, i.e. the same set delivered in two completion
orders) produce different bytes for the output file a.md, refuting the
claim that any completion order yields identical bytes: the code
collects phase results with buffer_unordered, so the grouping input
order is the completion order and it reaches the file content. -/
theorem completion_order_changes_bytes_cex :
    List.Perm [segA, segB] [segB, segA]
    ∧ build_file_content (group_by_output_path [segA, segB] "a.md") .markdown
        ≠ build_file_content (group_by_output_path [segB, segA] "a.md") .markdown := by
  constructor
  · decide
  · decide

/-- C1 (amended): per-file bytes are a deterministic function of the
order in which enhanced segments arrive from the phase: the group of
every path lists exactly the arriving segments that target it, in
arrival order (once per occurrence of the path among a segment's output
paths), so a fixed arrival order fully reproduces every output file;
distinct completion orders, however, may reorder a group. -/
theorem group_arrival_order_spec (arrived : List EnhancedSegment) (p : String) :
    group_by_output_path arrived p = arrived.flatMap (pathHits p)
    ∧ (∀ s : EnhancedSegment,
        s ∈ group_by_output_path arrived p ↔ s ∈ arrived ∧ p ∈ s.output_paths)
    ∧ ((∀ s ∈ arrived, s.output_paths.Nodup) →
        group_by_output_path arrived p
          = arrived.filter (fun s => p ∈ s.output_paths)) := by
  refine ⟨group_eq_flatMap arrived p, fun s => mem_group_iff arrived p s, ?_⟩
  intro hnd
  rw [group_eq_flatMap]
  induction arrived with
  | nil => rfl
  | cons s rest ih =>
    have hs := hnd s (List.mem_cons_self s rest)
    have hrest := fun x hx => hnd x (List.mem_cons_of_mem s hx)
    rw [List.flatMap_cons, List.filter_cons, ih hrest]
    simp only [pathHits, filter_beq_of_nodup p s.output_paths hs]
    by_cases hmem : p ∈ s.output_paths
    · simp [hmem]
    · simp [hmem]

/-- C1 witness: on a concrete arrival order with duplicate-free path
lists, the group of a.md is exactly the arriving segments targeting it,
in arrival order. -/
theorem group_arrival_order_spec_witness :
    group_by_output_path [segA, segB] "a.md" = [segA, segB] := by
  have h := (group_arrival_order_spec [segA, segB] "a.md").2.2 (by decide)
  rw [h]
  decide

/-- C2: under concurrency cap C of both the stream buffering and the
semaphore (config.parallel feeds both), every scheduler-reachable state
has at most C tasks holding a permit (and at most C buffered); a task
can become inflight only from the waiting state through a semaphore
acquisition that requires a free permit; and finishing releases the
permit unconditionally, for a successful and for a failed task alike. -/
theorem bounded_concurrency_spec (C N : Nat) (hC : 1 ≤ C) :
    (∀ s : List TaskPhase, SchedReachable C N s →
      inflightCount s ≤ C ∧ activeCount s ≤ C)
    ∧ (∀ s t : List TaskPhase, SchedStep C s t → ∀ i : Nat,
        s[i]? ≠ some TaskPhase.inflight → t[i]? = some TaskPhase.inflight →
        s[i]? = some TaskPhase.waiting ∧ inflightCount s < C)
    ∧ (∀ (s : List TaskPhase) (i : Nat) (b : Bool),
        s[i]? = some TaskPhase.inflight →
        inflightCount (s.set i (TaskPhase.done b)) + 1 = inflightCount s) :=
  ⟨fun s h => sched_reachable_bounds C N s h,
   fun _ _ hst i h1 h2 => schedStep_inflight_source C hst i h1 h2,
   fun s i b h => finish_releases_permit s i b h⟩

/-- C2 witness: with cap 1 and two tasks, after starting and admitting
the first task the reachable state has one task inflight, within the
bound. -/
theorem bounded_concurrency_spec_witness :
    inflightCount [TaskPhase.inflight, TaskPhase.pending] ≤ 1 := by
  have h1 : SchedReachable 1 2 [TaskPhase.pending, TaskPhase.pending] :=
    SchedReachable.init
  have h2 : SchedReachable 1 2 [TaskPhase.waiting, TaskPhase.pending] :=
    SchedReachable.step h1 (SchedStep.start _ 0 (by decide) (by decide))
  have h3 : SchedReachable 1 2 [TaskPhase.inflight, TaskPhase.pending] :=
    SchedReachable.step h2 (SchedStep.acquire _ 0 (by decide) (by decide))
  exact ((bounded_concurrency_spec 1 2 (by decide)).1 _ h3).1

/-- C3: for both phases, with per-item outcomes fixed by an oracle and
results arriving in any completion order, the number of successful
results plus the number of failed-and-dropped items equals the number of
submitted items, and the progress counter is incremented exactly once
per item, so it also equals the number of submitted items; no failure
removes any other item from the phase. -/
theorem phase_failure_isolation_counts
    (coracle : RawNote → Option (List Segment)) (notes arrived : List RawNote)
    (hperm : arrived.Perm notes)
    (eoracle : String × Segment → Option EnhancedSegment)
    (tasks arrivedT : List (String × Segment)) (hpermT : arrivedT.Perm tasks) :
    (categorize_all coracle arrived).length
        + notes.countP (fun n => (coracle n).isNone) = notes.length
    ∧ phaseProgress arrived = notes.length
    ∧ (enhance_all eoracle arrivedT).length
        + tasks.countP (fun w => (eoracle w).isNone) = tasks.length
    ∧ phaseProgress arrivedT = tasks.length := by
  refine ⟨?_, ?_, ?_, ?_⟩
  · rw [categorize_all, length_filterMap_id_map]
    have hc : arrived.countP
          (fun note => ((coracle note).map (fun segs => (note.path, segs))).isSome)
        = arrived.countP (fun note => (coracle note).isSome) := by
      apply List.countP_congr
      intro a _
      simp [Option.isSome_map]
    rw [hc, hperm.countP_eq]
    exact countP_isSome_add_isNone coracle notes
  · rw [phaseProgress_eq_length, hperm.length_eq]
  · rw [enhance_all, length_filterMap_id_map, hpermT.countP_eq]
    exact countP_isSome_add_isNone eoracle tasks
  · rw [phaseProgress_eq_length, hpermT.length_eq]

/-- A concrete note for the phase-count witness. -/
def noteX : RawNote := ⟨"x.md", "hello"⟩

/-- A second concrete note for the phase-count witness. -/
def noteY : RawNote := ⟨"y.md", "world"⟩

/-- An oracle that categorizes x.md and fails on every other note. -/
def coracleExample : RawNote → Option (List Segment) :=
  fun n => if n.path == "x.md" then some [] else none

/-- C3 witness: two notes arriving in reversed completion order, one of
which fails: one success plus one drop equals two, and progress is two. -/
theorem phase_failure_isolation_counts_witness :
    (categorize_all coracleExample [noteY, noteX]).length
        + [noteX, noteY].countP (fun n => (coracleExample n).isNone) = 2
    ∧ phaseProgress [noteY, noteX] = 2 := by
  have h := phase_failure_isolation_counts coracleExample
    [noteX, noteY] [noteY, noteX] (by decide)
    (fun _ => none) [] [] (List.Perm.refl [])
  exact ⟨h.1, h.2.1⟩

/-- C4: the chat loop issues at most max_retries attempts for any
outcome; when the first success comes at attempt k within the budget, it
returns that success after exactly k attempts, having slept between
consecutive failed attempts with exponential backoff 1, 2, 4, ... (2^j
seconds before attempt j+2) and with no sleep after the final attempt:
the sleep list has exactly k-1 entries. -/
theorem chat_retry_backoff_spec (outcome : Nat → Except ClientError String)
    (m k : Nat) (s : String) (hm : 1 ≤ m) (hk1 : 1 ≤ k) (hkm : k ≤ m)
    (hfail : ∀ i, 1 ≤ i → i < k → ∃ e, outcome i = .error e)
    (hok : outcome k = .ok s) :
    chat outcome m = ⟨.ok s, k, (List.range (k - 1)).map (fun j => 2 ^ j)⟩
    ∧ ∀ o : Nat → Except ClientError String, (chat o m).attempts ≤ m := by
  constructor
  · rw [chat]
    rw [chatLoop_first_success outcome m k s hok m 1 none (le_refl 1) hk1 hkm
        (by omega) (fun i hi hik => hfail i hi hik)]
    refine congrArg₂ (fun (a : Nat) (l : List Nat) =>
      ChatRun.mk (.ok s) a l) (by omega) ?_
    apply List.map_congr_left
    intro j _
    have hj : 1 + j - 1 = j := by omega
    rw [hj]
  · intro o
    exact chatLoop_attempts_le o m m 1 none

/-- C4 witness: with retries 3 and a call that fails twice then
succeeds, chat returns the success after three attempts and the
cumulative backoff slept before the final attempt is 1 + 2 seconds,
i.e. base + 2 times base for base 1. -/
theorem chat_retry_backoff_spec_witness :
    chat failTwiceOutcome 3 = ⟨.ok "done", 3, [1, 2]⟩ := by
  have h := (chat_retry_backoff_spec failTwiceOutcome 3 3 "done"
    (by omega) (by omega) (le_refl 3)
    (fun i h1 h2 => ⟨.noContent, by
      have hi : i = 1 ∨ i = 2 := by omega
      rcases hi with rfl | rfl <;> rfl⟩)
    rfl).1
  rw [h]
  decide

/-- C5 counterexample: with max_retries 2 and every attempt failing with
NoContent, chat returns the NoContent error itself, not the MaxRetries
error that carries the attempt count, refuting the claim that the
terminal error identifies the count of attempts: the code returns
last_error.unwrap_or(MaxRetries), and last_error is always set once at
least one attempt ran. -/
theorem chat_terminal_error_cex :
    (chat allFailOutcome 2).result = .error .noContent
    ∧ (chat allFailOutcome 2).result ≠ .error (.maxRetries 2) := by
  constructor
  · decide
  · decide

/-- C5 (amended): when every one of the max_retries attempts (at least
one) fails, chat fails with the last underlying error itself; the
MaxRetries variant naming the attempt count is only the fallback for the
degenerate zero-attempt case. -/
theorem chat_all_fail_returns_last_error
    (outcome : Nat → Except ClientError String) (m : Nat)
    (errs : Nat → ClientError) (hm : 1 ≤ m)
    (hfail : ∀ i, 1 ≤ i → i ≤ m → outcome i = .error (errs i)) :
    (chat outcome m).result = .error (errs m) := by
  rw [chat]
  exact chatLoop_all_fail outcome m errs hfail m 1 none (le_refl 1) hm (by omega)

/-- C5 witness: both attempts fail with NoContent, and the run fails
with that last error. -/
theorem chat_all_fail_returns_last_error_witness :
    (chat allFailOutcome 2).result = .error ClientError.noContent :=
  chat_all_fail_returns_last_error allFailOutcome 2 (fun _ => .noContent)
    (by omega) (fun _ _ _ => rfl)

/-- C6: on a successful enhancement call, enhance_segment produces an
enhanced segment whose target path set is exactly the union of the
segment's primary output paths and its cross-file paths, with content
replaced and all other fields propagated; and aggregation places that
enhanced segment in the group of precisely the paths of that set. -/
theorem enhance_segment_fanout_spec (seg : Segment) (path c : String) :
    ∃ es : EnhancedSegment,
      enhance_segment (.ok c) seg path = .ok es
      ∧ es.content = c ∧ es.category = seg.category
      ∧ es.subcategory = seg.subcategory ∧ es.original_path = path
      ∧ (∀ p, p ∈ es.output_paths ↔ p ∈ seg.paths ∨ p ∈ seg.cross_file_to)
      ∧ (∀ (segs : List EnhancedSegment) (p : String), es ∈ segs →
          (es ∈ group_by_output_path segs p ↔ p ∈ es.output_paths)) := by
  refine ⟨_, rfl, rfl, rfl, rfl, rfl, ?_, ?_⟩
  · intro p
    simp [enhance_segment, List.mem_append]
  · intro segs p hmem
    rw [mem_group_iff]
    exact ⟨fun h => h.2, fun h => ⟨hmem, h⟩⟩

/-- C6 witness: a segment with primary path a.md and cross-file path
b.md enhances to a segment present in both the a.md and the b.md
aggregation groups. -/
theorem enhance_segment_fanout_spec_witness :
    ∃ es : EnhancedSegment,
      enhance_segment (.ok "C") segExample "note.md" = .ok es
      ∧ es ∈ group_by_output_path [es] "a.md"
      ∧ es ∈ group_by_output_path [es] "b.md" := by
  obtain ⟨es, he, _, _, _, _, hunion, hgrp⟩ :=
    enhance_segment_fanout_spec segExample "note.md" "C"
  refine ⟨es, he, ?_, ?_⟩
  · exact (hgrp [es] "a.md" (List.mem_singleton_self es)).mpr
      ((hunion "a.md").mpr (Or.inl (by simp [segExample])))
  · exact (hgrp [es] "b.md" (List.mem_singleton_self es)).mpr
      ((hunion "b.md").mpr (Or.inr (by simp [segExample])))

/-- C7 counterexample: a single segment whose content already ends with
two newlines renders unchanged, so the written file ends with two
newlines, refuting the claim of exactly one trailing newline: the code
appends a newline only when one is missing and never trims extras. -/
theorem trailing_newline_cex :
    build_file_content [segNL] .markdown = "x\n\n"
    ∧ exactlyOneTrailingNewline "x\n\n" = false := by
  constructor
  · decide
  · decide

/-- C7 (amended): for every non-empty group, the rendered content is the
segments' texts joined in insertion order by the format separator (the
horizontal-rule string for markdown, the 80-equals-signs rule for plain
text), with one newline appended exactly when the joined text does not
already end with a newline, so the file always ends with at least one
trailing newline (exactly one unless a segment text supplies more). -/
theorem build_file_content_render_spec (segments : List EnhancedSegment)
    (format : OutputFormat) (hne : segments ≠ []) :
    build_file_content segments format =
      (if endsWithNewline (joinSep (sepFor format) (segments.map (fun s => s.content)))
       then joinSep (sepFor format) (segments.map (fun s => s.content))
       else joinSep (sepFor format) (segments.map (fun s => s.content)) ++ "\n")
    ∧ endsWithNewline (build_file_content segments format) = true
    ∧ sepFor .markdown = "\n\n---\n\n"
    ∧ sepFor .plain = "\n\n" ++ String.mk (List.replicate 80 '=') ++ "\n\n" :=
  ⟨build_file_content_eq_joinSep segments format hne,
   build_file_content_endsWithNewline segments format, rfl, rfl⟩

/-- C7 witness: two markdown segments render as their texts joined by
the rule separator with a single appended newline. -/
theorem build_file_content_render_spec_witness :
    build_file_content [segA, segB] OutputFormat.markdown
      = "Alpha\n\n---\n\nBeta\n" := by
  have h := (build_file_content_render_spec [segA, segB] .markdown
    (by simp)).1
  rw [h]
  decide

/-- C8: extract_json trims whitespace; when the trimmed reply does not
start with a triple-backtick fence it is returned unchanged; when it
does, the slice strictly between the first newline (the end of the
opening fence line, language tag included) and the last fence occurrence
after that newline is returned trimmed; and with malformed fencing (no
newline at all, or no closing fence after the first newline) the trimmed
reply is returned unchanged. -/
theorem extract_json_behavior_spec (response : String) (n e : Nat) :
    ((trimChars response.data).take 3 ≠ tripleFence →
      extract_json response = String.mk (trimChars response.data))
    ∧ ('\n' ∉ trimChars response.data →
      extract_json response = String.mk (trimChars response.data))
    ∧ ((trimChars response.data).take 3 = tripleFence →
      (trimChars response.data)[n]? = some '\n' →
      (∀ j, j < n → (trimChars response.data)[j]? ≠ some '\n') →
      fenceAt ((trimChars response.data).drop (n + 1)) e = true →
      (∀ j, e < j → fenceAt ((trimChars response.data).drop (n + 1)) j = false) →
      extract_json response
        = String.mk (trimChars (((trimChars response.data).drop (n + 1)).take e)))
    ∧ ((trimChars response.data).take 3 = tripleFence →
      (trimChars response.data)[n]? = some '\n' →
      (∀ j, j < n → (trimChars response.data)[j]? ≠ some '\n') →
      (∀ j, fenceAt ((trimChars response.data).drop (n + 1)) j = false) →
      extract_json response = String.mk (trimChars response.data)) := by
  refine ⟨?_, ?_, ?_, ?_⟩
  · intro h
    simp only [extract_json, extractJsonChars]
    rw [if_neg h]
  · intro h
    simp only [extract_json, extractJsonChars]
    by_cases hf : (trimChars response.data).take 3 = tripleFence
    · rw [if_pos hf, findNewline_of_not_mem _ h]
    · rw [if_neg hf]
  · intro hf h1 h2 h3 h4
    simp only [extract_json, extractJsonChars, if_pos hf,
      findNewline_spec _ n h1 h2, rfindFence_some _ e h3 h4]
  · intro hf h1 h2 h3
    simp only [extract_json, extractJsonChars, if_pos hf,
      findNewline_spec _ n h1 h2, rfindFence_none _ h3]

/-- C8 witness: a reply fenced with a json language tag extracts to the
bare JSON body. -/
theorem extract_json_behavior_spec_witness :
    extract_json fencedExample = "{}" := by
  have h := (extract_json_behavior_spec fencedExample 7 3).2.2.1
    (by decide) (by decide)
    (by intro j hj; interval_cases j <;> decide)
    (by decide)
    (by
      intro j hj
      rcases Nat.lt_or_ge j 6 with h6 | h6
      · interval_cases j <;> decide
      · exact fenceAt_false_of_ge _ j (le_trans (by decide) h6))
  rw [h]
  decide

/-- C9: serializing any known Category member and re-parsing the result
yields the same member, and any string matching no known member's
serialized form parses to the custom variant holding it and serializes
back to itself unchanged. -/
theorem category_roundtrip_spec :
    (∀ c : Category, (∀ s : String, c ≠ .custom s) →
      parseCategory (serializeCategory c) = c)
    ∧ (∀ s : String, (∀ kv ∈ knownCategories, kv.2 ≠ s) →
      parseCategory s = .custom s ∧ serializeCategory (.custom s) = s) := by
  constructor
  · intro c h
    cases c
    case custom s => exact absurd rfl (h s)
    all_goals decide
  · intro s h
    have hnone : knownCategories.find? (fun kv => kv.2 = s) = none := by
      rw [List.find?_eq_none]
      intro kv hkv
      simpa using h kv hkv
    constructor
    · rw [parseCategory, hnone]
    · rfl

/-- C9 witness: the snake-case member computer_science round-trips to
the same member, and the unknown lowercase string quantum round-trips
through the custom variant. -/
theorem category_roundtrip_spec_witness :
    parseCategory (serializeCategory Category.computerScience)
        = Category.computerScience
    ∧ parseCategory "quantum" = Category.custom "quantum"
    ∧ serializeCategory (Category.custom "quantum") = "quantum" := by
  refine ⟨?_, ?_, ?_⟩
  · exact category_roundtrip_spec.1 Category.computerScience
      (fun s hcontra => Category.noConfusion hcontra)
  · exact (category_roundtrip_spec.2 "quantum" (by decide)).1
  · exact (category_roundtrip_spec.2 "quantum" (by decide)).2

/-- C10: an enhanced segment whose output path list is empty belongs to
no aggregation group, in particular to no group that the writer renders
to a file, so its content is silently discarded; grouping and writing
are total functions, so no error is raised by the discard. -/
theorem empty_output_paths_discarded_spec (segs : List EnhancedSegment)
    (s : EnhancedSegment) (hmem : s ∈ segs) (hempty : s.output_paths = []) :
    (∀ p : String, s ∉ group_by_output_path segs p)
    ∧ (∀ (format : OutputFormat) (pr : String × String),
        pr ∈ write_outputs segs format → s ∉ group_by_output_path segs pr.1) := by
  have hmain : ∀ p : String, s ∉ group_by_output_path segs p := by
    intro p hp
    rw [mem_group_iff] at hp
    rw [hempty] at hp
    exact absurd hp.2 (List.not_mem_nil p)
  exact ⟨hmain, fun format pr _ => hmain pr.1⟩

/-- C10 witness: the concrete segment with no output paths is absent
from the a.md group even though it was aggregated alongside a segment
targeting a.md. -/
theorem empty_output_paths_discarded_spec_witness :
    segNoPath ∉ group_by_output_path [segNoPath, segA] "a.md" :=
  (empty_output_paths_discarded_spec [segNoPath, segA] segNoPath
    (List.mem_cons_self segNoPath [segA]) rfl).1 "a.md"
